import Mathlib

/-!
Verification of the clinical camera overlay/capture utility.

The repository consists of `overlay.py` (static guide geometry plus drawing
helpers built on OpenCV) and two near-identical entry points `main.py` /
`main_phone.py` (the capture loop).  The geometry in `OverlayRenderer.__init__`
is computed with Python floats (IEEE-754 binary64), and several claims hinge on
double-rounding effects, so the model below embeds binary64 arithmetic exactly:
a rational is rounded to 53 significant bits with round-to-nearest, ties to
even.  The exponent range is unbounded; every value that occurs in the program
is far away from binary64 overflow and from the subnormal range, where this
model and IEEE-754 agree.
-/

namespace CameraOverlay

/-- Round a rational to the nearest integer, ties going to the even integer
(the IEEE-754 default rounding applied to a scaled significand). -/
def rhe (q : ℚ) : ℤ :=
  if q - ⌊q⌋ < 1/2 then ⌊q⌋
  else if 1/2 < q - ⌊q⌋ then ⌊q⌋ + 1
  else if ⌊q⌋ % 2 = 0 then ⌊q⌋ else ⌊q⌋ + 1

/-- Round a positive rational to the nearest binary64 value: scale into
`[2^52, 2^53)`, round the significand to an integer, scale back. -/
def RNpos (q : ℚ) : ℚ :=
  (rhe (q * 2 ^ (52 - Int.log 2 q)) : ℚ) * 2 ^ (Int.log 2 q - 52)

/-- Round any rational to the nearest binary64 value. -/
def RN (q : ℚ) : ℚ :=
  if q < 0 then -RNpos (-q) else if q = 0 then 0 else RNpos q

theorem rhe_ge (q : ℚ) : q - 1/2 ≤ (rhe q : ℚ) := by
  have h1 : (⌊q⌋ : ℚ) ≤ q := Int.floor_le q
  have h2 : q < ⌊q⌋ + 1 := Int.lt_floor_add_one q
  unfold rhe
  split_ifs with hf hg he
  · linarith
  · push_cast
    linarith
  · linarith
  · push_cast
    linarith

theorem rhe_le (q : ℚ) : (rhe q : ℚ) ≤ q + 1/2 := by
  have h1 : (⌊q⌋ : ℚ) ≤ q := Int.floor_le q
  have h2 : q < ⌊q⌋ + 1 := Int.lt_floor_add_one q
  unfold rhe
  split_ifs with hf hg he
  · linarith
  · push_cast
    linarith
  · linarith
  · push_cast
    linarith

theorem rhe_intCast (n : ℤ) : rhe (n : ℚ) = n := by
  unfold rhe
  rw [Int.floor_intCast]
  norm_num

/-- Evaluation helper: if `q` lies in `[n, n + 1/2)` it rounds to `n`. -/
theorem rhe_eq_low (q : ℚ) (n : ℤ) (h1 : (n : ℚ) ≤ q) (h2 : q < (n : ℚ) + 1/2) :
    rhe q = n := by
  have hf : ⌊q⌋ = n := Int.floor_eq_iff.mpr ⟨h1, by linarith⟩
  unfold rhe
  rw [hf]
  rw [if_pos (by linarith)]

/-- Evaluation helper: if `q` lies in `(n + 1/2, n + 1)` it rounds to `n + 1`. -/
theorem rhe_eq_high (q : ℚ) (n : ℤ) (h1 : (n : ℚ) + 1/2 < q) (h2 : q < (n : ℚ) + 1) :
    rhe q = n + 1 := by
  have hf : ⌊q⌋ = n := Int.floor_eq_iff.mpr ⟨by linarith, by linarith⟩
  unfold rhe
  rw [hf]
  rw [if_neg (by linarith), if_pos (by linarith)]

/-- Evaluation helper: an exact tie at an even integer rounds down to it. -/
theorem rhe_eq_tie_even (q : ℚ) (n : ℤ) (h1 : q = (n : ℚ) + 1/2) (h2 : n % 2 = 0) :
    rhe q = n := by
  have hf : ⌊q⌋ = n := Int.floor_eq_iff.mpr ⟨by simp [h1], by simp [h1]; norm_num⟩
  unfold rhe
  rw [hf]
  rw [if_neg (by simp [h1]), if_neg (by simp [h1]), if_pos h2]

/-- Evaluation helper: an exact tie at an odd integer rounds up to the even
neighbor. -/
theorem rhe_eq_tie_odd (q : ℚ) (n : ℤ) (h1 : q = (n : ℚ) + 1/2) (h2 : ¬(n % 2 = 0)) :
    rhe q = n + 1 := by
  have hf : ⌊q⌋ = n := Int.floor_eq_iff.mpr ⟨by simp [h1], by simp [h1]; norm_num⟩
  unfold rhe
  rw [hf]
  rw [if_neg (by simp [h1]), if_neg (by simp [h1]), if_neg h2]

/-- The binade exponent is pinned down by a two-sided power bracket. -/
theorem log2_eq (q : ℚ) (E : ℤ) (hq : 0 < q) (h1 : (2:ℚ) ^ E ≤ q)
    (h2 : q < (2:ℚ) ^ (E + 1)) : Int.log 2 q = E := by
  have ha : E ≤ Int.log 2 q := (Int.zpow_le_iff_le_log (by norm_num) hq).mp h1
  have hb : Int.log 2 q < E + 1 := (Int.lt_zpow_iff_log_lt (by norm_num) hq).mp h2
  omega

theorem RN_pos_eq (q : ℚ) (hq : 0 < q) : RN q = RNpos q := by
  unfold RN
  rw [if_neg (by linarith), if_neg (by linarith)]

theorem RN_zero : RN 0 = 0 := by
  unfold RN
  norm_num

/-- Relative error bound: rounding up moves a positive value by at most
`2^(-53)` of itself. -/
theorem RN_le (q : ℚ) (hq : 0 ≤ q) : RN q ≤ q * (1 + (2:ℚ) ^ (-53 : ℤ)) := by
  rcases eq_or_lt_of_le hq with h | h
  · rw [← h, RN_zero]
    norm_num
  · rw [RN_pos_eq q h]
    unfold RNpos
    have hne : (2:ℚ) ≠ 0 := by norm_num
    have hppos : (0:ℚ) < 2 ^ (Int.log 2 q - 52) := zpow_pos (by norm_num) _
    have hinv : (2:ℚ) ^ (52 - Int.log 2 q) * 2 ^ (Int.log 2 q - 52) = 1 := by
      rw [← zpow_add₀ hne]
      norm_num
    have hr := rhe_le (q * 2 ^ (52 - Int.log 2 q))
    have hstep : (rhe (q * 2 ^ (52 - Int.log 2 q)) : ℚ) * 2 ^ (Int.log 2 q - 52) ≤
        (q * 2 ^ (52 - Int.log 2 q) + 1/2) * 2 ^ (Int.log 2 q - 52) :=
      mul_le_mul_of_nonneg_right hr (le_of_lt hppos)
    have hexp : (q * 2 ^ (52 - Int.log 2 q) + 1/2) * 2 ^ (Int.log 2 q - 52) =
        q + 2 ^ (Int.log 2 q - 53) := by
      have h53 : (2:ℚ) ^ (Int.log 2 q - 52) = 2 ^ (Int.log 2 q - 53) * 2 := by
        rw [← zpow_add_one₀ hne]
        ring_nf
      rw [add_mul, mul_assoc, hinv, mul_one, h53]
      ring
    have hlog : (2:ℚ) ^ Int.log 2 q ≤ q := Int.zpow_log_le_self (by norm_num) h
    have hsmall : (2:ℚ) ^ (Int.log 2 q - 53) ≤ q * 2 ^ (-53 : ℤ) := by
      have : (2:ℚ) ^ (Int.log 2 q - 53) = 2 ^ Int.log 2 q * 2 ^ (-53 : ℤ) := by
        rw [← zpow_add₀ hne]
        ring_nf
      rw [this]
      exact mul_le_mul_of_nonneg_right hlog (le_of_lt (zpow_pos (by norm_num) _))
    calc (rhe (q * 2 ^ (52 - Int.log 2 q)) : ℚ) * 2 ^ (Int.log 2 q - 52)
        ≤ q + 2 ^ (Int.log 2 q - 53) := by rw [← hexp]; exact hstep
      _ ≤ q + q * 2 ^ (-53 : ℤ) := by linarith
      _ = q * (1 + 2 ^ (-53 : ℤ)) := by ring

/-- Relative error bound: rounding down moves a positive value by at most
`2^(-53)` of itself. -/
theorem RN_ge (q : ℚ) (hq : 0 ≤ q) : q * (1 - (2:ℚ) ^ (-53 : ℤ)) ≤ RN q := by
  rcases eq_or_lt_of_le hq with h | h
  · rw [← h, RN_zero]
    norm_num
  · rw [RN_pos_eq q h]
    unfold RNpos
    have hne : (2:ℚ) ≠ 0 := by norm_num
    have hppos : (0:ℚ) < 2 ^ (Int.log 2 q - 52) := zpow_pos (by norm_num) _
    have hinv : (2:ℚ) ^ (52 - Int.log 2 q) * 2 ^ (Int.log 2 q - 52) = 1 := by
      rw [← zpow_add₀ hne]
      norm_num
    have hr := rhe_ge (q * 2 ^ (52 - Int.log 2 q))
    have hstep : (q * 2 ^ (52 - Int.log 2 q) - 1/2) * 2 ^ (Int.log 2 q - 52) ≤
        (rhe (q * 2 ^ (52 - Int.log 2 q)) : ℚ) * 2 ^ (Int.log 2 q - 52) :=
      mul_le_mul_of_nonneg_right hr (le_of_lt hppos)
    have hexp : (q * 2 ^ (52 - Int.log 2 q) - 1/2) * 2 ^ (Int.log 2 q - 52) =
        q - 2 ^ (Int.log 2 q - 53) := by
      have h53 : (2:ℚ) ^ (Int.log 2 q - 52) = 2 ^ (Int.log 2 q - 53) * 2 := by
        rw [← zpow_add_one₀ hne]
        ring_nf
      rw [sub_mul, mul_assoc, hinv, mul_one, h53]
      ring
    have hlog : (2:ℚ) ^ Int.log 2 q ≤ q := Int.zpow_log_le_self (by norm_num) h
    have hsmall : (2:ℚ) ^ (Int.log 2 q - 53) ≤ q * 2 ^ (-53 : ℤ) := by
      have : (2:ℚ) ^ (Int.log 2 q - 53) = 2 ^ Int.log 2 q * 2 ^ (-53 : ℤ) := by
        rw [← zpow_add₀ hne]
        ring_nf
      rw [this]
      exact mul_le_mul_of_nonneg_right hlog (le_of_lt (zpow_pos (by norm_num) _))
    have : q * (1 - (2:ℚ) ^ (-53 : ℤ)) ≤ q - 2 ^ (Int.log 2 q - 53) := by
      have hq53 : q * (1 - (2:ℚ) ^ (-53 : ℤ)) = q - q * 2 ^ (-53 : ℤ) := by ring
      linarith
    linarith [hstep, hexp.symm ▸ hstep]

theorem RN_nonneg (q : ℚ) (hq : 0 ≤ q) : 0 ≤ RN q := by
  have h := RN_ge q hq
  have hpos : (0:ℚ) ≤ q * (1 - (2:ℚ) ^ (-53 : ℤ)) := by
    apply mul_nonneg hq
    norm_num
  linarith

/-- Values of the form `n * 2^k` with `n < 2^53` are binary64-representable
and are fixed by rounding. -/
theorem RN_dyadic (n : ℕ) (k : ℤ) (h1 : 0 < n) (h2 : n < 2 ^ 53) :
    RN ((n : ℚ) * 2 ^ k) = (n : ℚ) * 2 ^ k := by
  have hne : (2:ℚ) ≠ 0 := by norm_num
  have hnq : (0:ℚ) < (n : ℚ) := by exact_mod_cast h1
  have hqpos : (0:ℚ) < (n : ℚ) * 2 ^ k := mul_pos hnq (zpow_pos (by norm_num) k)
  set L := Nat.log 2 n with hLdef
  have hL1 : (2:ℕ) ^ L ≤ n := Nat.pow_log_le_self 2 (by omega)
  have hL2 : n < 2 ^ (L + 1) := Nat.lt_pow_succ_log_self (by norm_num) n
  have hL52 : L ≤ 52 := by
    have hlt : L < 53 := Nat.log_lt_of_lt_pow (by omega) h2
    omega
  have hElow : (2:ℚ) ^ ((L : ℤ) + k) ≤ (n : ℚ) * 2 ^ k := by
    rw [zpow_add₀ hne]
    apply mul_le_mul_of_nonneg_right _ (le_of_lt (zpow_pos (by norm_num) k))
    rw [zpow_natCast]
    exact_mod_cast hL1
  have hEhigh : (n : ℚ) * 2 ^ k < (2:ℚ) ^ ((L : ℤ) + k + 1) := by
    have hre : (L : ℤ) + k + 1 = ((L + 1 : ℕ) : ℤ) + k := by push_cast; ring
    rw [hre, zpow_add₀ hne]
    apply mul_lt_mul_of_pos_right _ (zpow_pos (by norm_num) k)
    rw [zpow_natCast]
    exact_mod_cast hL2
  rw [RN_pos_eq _ hqpos]
  unfold RNpos
  rw [log2_eq _ _ hqpos hElow hEhigh]
  have hexp : k + (52 - ((L : ℤ) + k)) = ((52 - L : ℕ) : ℤ) := by
    push_cast [Nat.cast_sub hL52]
    ring
  have key : (n : ℚ) * 2 ^ k * 2 ^ (52 - ((L : ℤ) + k)) = (((n * 2 ^ (52 - L) : ℕ) : ℤ) : ℚ) := by
    push_cast
    rw [mul_assoc, ← zpow_add₀ hne, hexp, zpow_natCast]
  rw [key, rhe_intCast]
  have hexp2 : ((52 - L : ℕ) : ℤ) + ((L : ℤ) + k - 52) = k := by
    push_cast [Nat.cast_sub hL52]
    ring
  push_cast
  rw [← zpow_natCast (2:ℚ) (52 - L), mul_assoc, ← zpow_add₀ hne, hexp2]

theorem RN_natCast (n : ℕ) (h2 : n < 2 ^ 53) : RN (n : ℚ) = n := by
  rcases Nat.eq_zero_or_pos n with h | h
  · rw [h]
    simpa using RN_zero
  · have hd := RN_dyadic n 0 h h2
    simpa using hd

/-- Evaluation of rounding at a concrete positive rational: supply the binade
exponent and the rounded significand. -/
theorem RN_eval (q : ℚ) (E M : ℤ) (hq : 0 < q) (h1 : (2:ℚ) ^ E ≤ q)
    (h2 : q < (2:ℚ) ^ (E + 1)) (h3 : rhe (q * 2 ^ (52 - E)) = M) :
    RN q = (M : ℚ) * 2 ^ (E - 52) := by
  rw [RN_pos_eq q hq]
  unfold RNpos
  rw [log2_eq q E hq h1 h2, h3]

/-- A rational within the rounding neighborhood of a representable positive
integer `d` — within `d * 2^(-54)` on either side — rounds to `d`.  The
lower margin is also safe when `q` dips below `d`'s binade (then `d` is a
power of two and the tie at the binade edge resolves upward, to the even
significand). -/
theorem RN_fix_near (d : ℕ) (q : ℚ) (h1 : 1 ≤ d) (h2 : d < 2 ^ 53)
    (hlo : (d : ℚ) - q ≤ d * (2:ℚ) ^ (-54 : ℤ)) (hhi : q - d ≤ d * (2:ℚ) ^ (-54 : ℤ)) :
    RN q = d := by
  have hne : (2:ℚ) ≠ 0 := by norm_num
  have hE : ((2:ℚ) ^ (-54:ℤ)) = 1/18014398509481984 := by norm_num
  rw [hE] at hlo hhi
  set L := Nat.log 2 d with hL
  have hL1 : (2:ℕ) ^ L ≤ d := Nat.pow_log_le_self 2 (by omega)
  have hL2 : d < 2 ^ (L + 1) := Nat.lt_pow_succ_log_self (by norm_num) d
  have hL52 : L ≤ 52 := by
    have hlt : L < 53 := Nat.log_lt_of_lt_pow (by omega) h2
    omega
  have hdq1 : (1:ℚ) ≤ (d:ℚ) := by exact_mod_cast h1
  have hdq2 : (d:ℚ) < 2 ^ 53 := by exact_mod_cast h2
  have hLq1 : (2:ℚ) ^ (L:ℤ) ≤ (d:ℚ) := by
    rw [zpow_natCast]
    exact_mod_cast hL1
  have hLq2 : (d:ℚ) < 2 ^ ((L:ℤ) + 1) := by
    rw [show (L:ℤ) + 1 = ((L + 1 : ℕ) : ℤ) by push_cast; ring, zpow_natCast]
    exact_mod_cast hL2
  have htiny : (d:ℚ) * (1/18014398509481984) < 1/2 := by linarith
  have hqpos : 0 < q := by linarith
  by_cases hcase : (2:ℚ) ^ (L:ℤ) ≤ q
  · -- q lies in d's binade
    have hqhi : q < 2 ^ ((L:ℤ) + 1) := by
      have hd1 : (d:ℚ) + 1 ≤ 2 ^ ((L:ℤ) + 1) := by
        rw [show (L:ℤ) + 1 = ((L + 1 : ℕ) : ℤ) by push_cast; ring, zpow_natCast]
        exact_mod_cast hL2
      linarith
    have hlog : Int.log 2 q = L := log2_eq q L hqpos hcase hqhi
    rw [RN_pos_eq q hqpos]
    unfold RNpos
    rw [hlog]
    have hM0 : (((d : ℤ) * 2 ^ (52 - L) : ℤ) : ℚ) = (d:ℚ) * 2 ^ ((52:ℤ) - L) := by
      push_cast
      rw [show ((52:ℤ) - L) = ((52 - L : ℕ) : ℤ) by omega, zpow_natCast]
    have hM1 : (((d : ℤ) * 2 ^ (52 - L) - 1 : ℤ) : ℚ) = (d:ℚ) * 2 ^ ((52:ℤ) - L) - 1 := by
      push_cast
      rw [show ((52:ℤ) - L) = ((52 - L : ℕ) : ℤ) by omega, zpow_natCast]
    have hppos : (0:ℚ) < 2 ^ ((52:ℤ) - L) := zpow_pos (by norm_num) _
    have hprodN : (1/18014398509481984 : ℚ) * 2 ^ ((52:ℤ) - L) = 2 ^ (-(L:ℤ) - 2) := by
      rw [show (1/18014398509481984 : ℚ) = (2:ℚ) ^ (-54:ℤ) by norm_num, ← zpow_add₀ hne]
      congr 1
      ring
    have hhalf : (d:ℚ) * 2 ^ (-(L:ℤ) - 2) < 1/2 := by
      have hstep : (d:ℚ) * 2 ^ (-(L:ℤ) - 2) < 2 ^ ((L:ℤ) + 1) * 2 ^ (-(L:ℤ) - 2) :=
        mul_lt_mul_of_pos_right hLq2 (zpow_pos (by norm_num) _)
      have hval : (2:ℚ) ^ ((L:ℤ) + 1) * 2 ^ (-(L:ℤ) - 2) = 1/2 := by
        rw [← zpow_add₀ hne, show (L:ℤ) + 1 + (-(L:ℤ) - 2) = -1 by ring]
        norm_num
      linarith
    have hmub : q * 2 ^ ((52:ℤ) - L) - (d:ℚ) * 2 ^ ((52:ℤ) - L) < 1/2 := by
      have hmm := mul_le_mul_of_nonneg_right hhi (le_of_lt hppos)
      calc q * 2 ^ ((52:ℤ) - L) - (d:ℚ) * 2 ^ ((52:ℤ) - L)
          = (q - d) * 2 ^ ((52:ℤ) - L) := by ring
        _ ≤ (d:ℚ) * (1/18014398509481984) * 2 ^ ((52:ℤ) - L) := hmm
        _ = (d:ℚ) * 2 ^ (-(L:ℤ) - 2) := by rw [mul_assoc, hprodN]
        _ < 1/2 := hhalf
    have hmlb : (d:ℚ) * 2 ^ ((52:ℤ) - L) - q * 2 ^ ((52:ℤ) - L) < 1/2 := by
      have hmm := mul_le_mul_of_nonneg_right hlo (le_of_lt hppos)
      calc (d:ℚ) * 2 ^ ((52:ℤ) - L) - q * 2 ^ ((52:ℤ) - L)
          = ((d:ℚ) - q) * 2 ^ ((52:ℤ) - L) := by ring
        _ ≤ (d:ℚ) * (1/18014398509481984) * 2 ^ ((52:ℤ) - L) := hmm
        _ = (d:ℚ) * 2 ^ (-(L:ℤ) - 2) := by rw [mul_assoc, hprodN]
        _ < 1/2 := hhalf
    have hrhe : rhe (q * 2 ^ (52 - (L:ℤ))) = (d : ℤ) * 2 ^ (52 - L) := by
      rcases le_or_lt (((d : ℤ) * 2 ^ (52 - L) : ℤ) : ℚ) (q * 2 ^ (52 - (L:ℤ))) with hge | hlt
      · apply rhe_eq_low _ _ hge
        rw [hM0]
        linarith
      · have hres := rhe_eq_high (q * 2 ^ (52 - (L:ℤ))) ((d : ℤ) * 2 ^ (52 - L) - 1)
          (by rw [hM1]; rw [hM0] at hlt; linarith)
          (by rw [hM1]; rw [hM0] at hlt; linarith)
        rw [hres]
        ring
    rw [hrhe, hM0, mul_assoc, ← zpow_add₀ hne,
      show ((52:ℤ) - L) + ((L:ℤ) - 52) = 0 by ring, zpow_zero, mul_one]
  · -- q dips just below d's binade: then d is the power of two 2^L
    push_neg at hcase
    have hd2L : (d:ℚ) = 2 ^ (L:ℤ) := by
      have hup : (d:ℚ) < 2 ^ (L:ℤ) + 1 := by linarith
      have hdle : d ≤ 2 ^ L := by
        by_contra hcon
        push_neg at hcon
        have hcast : ((2 ^ L + 1 : ℕ) : ℚ) ≤ (d:ℚ) := by exact_mod_cast hcon
        rw [show ((2 ^ L + 1 : ℕ) : ℚ) = 2 ^ ((L:ℕ):ℤ) + 1 by push_cast; rw [zpow_natCast]]
          at hcast
        linarith
      have hdeq : d = 2 ^ L := le_antisymm hdle hL1
      rw [hdeq]
      push_cast
      rw [zpow_natCast]
    have hLpos : (0:ℚ) < 2 ^ (L:ℤ) := zpow_pos (by norm_num) _
    have hqlb' : (2:ℚ) ^ (L:ℤ) - 2 ^ (L:ℤ) * (1/18014398509481984) ≤ q := by
      rw [← hd2L]
      linarith
    have hqlb : 2 ^ ((L:ℤ) - 1) ≤ q := by
      have hhalfpow : (2:ℚ) ^ ((L:ℤ) - 1) = 2 ^ (L:ℤ) * (1/2) := by
        rw [show (L:ℤ) - 1 = (L:ℤ) + (-1) by ring, zpow_add₀ hne]
        norm_num
      linarith [hLpos, hhalfpow, hqlb']
    have hlog : Int.log 2 q = (L:ℤ) - 1 := by
      apply log2_eq q ((L:ℤ) - 1) hqpos hqlb
      rw [show (L:ℤ) - 1 + 1 = (L:ℤ) by ring]
      exact hcase
    rw [RN_pos_eq q hqpos]
    unfold RNpos
    rw [hlog]
    have hppos : (0:ℚ) < 2 ^ ((53:ℤ) - L) := zpow_pos (by norm_num) _
    have hpow53 : (2:ℚ) ^ (L:ℤ) * 2 ^ ((53:ℤ) - L) = 2 ^ (53:ℤ) := by
      rw [← zpow_add₀ hne, show (L:ℤ) + ((53:ℤ) - L) = 53 by ring]
    have hpowhalf : (2:ℚ) ^ (L:ℤ) * (1/18014398509481984) * 2 ^ ((53:ℤ) - L) = 1/2 := by
      rw [show (1/18014398509481984 : ℚ) = (2:ℚ) ^ (-54:ℤ) by norm_num]
      rw [mul_assoc, ← zpow_add₀ hne, ← zpow_add₀ hne,
        show (L:ℤ) + ((-54:ℤ) + ((53:ℤ) - L)) = -1 by ring]
      norm_num
    have hm_ub : q * 2 ^ ((53:ℤ) - L) < 2 ^ (53:ℤ) := by
      have hmm := mul_lt_mul_of_pos_right hcase hppos
      calc q * 2 ^ ((53:ℤ) - L) < 2 ^ (L:ℤ) * 2 ^ ((53:ℤ) - L) := hmm
        _ = 2 ^ (53:ℤ) := hpow53
    have hmlb_eq : ((2:ℚ) ^ (L:ℤ) - 2 ^ (L:ℤ) * (1/18014398509481984)) * 2 ^ ((53:ℤ) - L) =
        2 ^ (53:ℤ) - 1/2 := by
      rw [sub_mul, hpow53, hpowhalf]
    have hm_lb : (2:ℚ) ^ (53:ℤ) - 1/2 ≤ q * 2 ^ ((53:ℤ) - L) := by
      rw [← hmlb_eq]
      exact mul_le_mul_of_nonneg_right hqlb' (le_of_lt hppos)
    have hq53 : (2:ℚ) ^ (53:ℤ) = ((2 ^ 53 - 1 : ℤ) : ℚ) + 1 := by
      push_cast
      norm_num
    have hrhe : rhe (q * 2 ^ (52 - ((L:ℤ) - 1))) = 2 ^ 53 := by
      rw [show (52:ℤ) - ((L:ℤ) - 1) = (53:ℤ) - L by ring]
      rcases eq_or_lt_of_le hm_lb with heq | hlt
      · rw [rhe_eq_tie_odd (q * 2 ^ ((53:ℤ) - L)) (2 ^ 53 - 1) (by rw [← heq, hq53]; ring)
          (by norm_num)]
        norm_num
      · rw [rhe_eq_high (q * 2 ^ ((53:ℤ) - L)) (2 ^ 53 - 1) (by rw [hq53] at hlt; linarith)
          (by rw [hq53] at hm_ub; linarith)]
        norm_num
    rw [hrhe, hd2L]
    push_cast
    rw [show (9007199254740992 : ℚ) = (2:ℚ) ^ (53:ℤ) by norm_num, ← zpow_add₀ hne,
      show (53:ℤ) + ((L:ℤ) - 1 - 52) = (L:ℤ) by ring]

/-- Binary64 multiplication: the exact product, correctly rounded. -/
def fmul (a b : ℚ) : ℚ := RN (a * b)

/-- Binary64 division: the exact quotient, correctly rounded. -/
def fdiv (a b : ℚ) : ℚ := RN (a / b)

/-- Conversion of a Python int operand to binary64, as happens inside a
float-int product such as `0.20 * width`. -/
def dbl (n : ℕ) : ℚ := RN n

/-- Python `int()` applied to a float: truncation toward zero. -/
def pyInt (q : ℚ) : ℤ := if q < 0 then -⌊-q⌋ else ⌊q⌋

theorem pyInt_of_nonneg (q : ℚ) (hq : 0 ≤ q) : pyInt q = ⌊q⌋ := by
  unfold pyInt
  rw [if_neg (not_lt.mpr hq)]

/-!
### The decimal literals of overlay.py as binary64 values

Python parses every decimal literal to the nearest binary64 value; these are
the exact rational values used by `OverlayRenderer.__init__`.
-/

theorem c025_val : RN (25/100 : ℚ) = 1/4 := by
  rw [show (25/100 : ℚ) = ((1:ℕ) : ℚ) * 2 ^ (-2 : ℤ) by push_cast; norm_num,
    RN_dyadic 1 (-2) (by norm_num) (by norm_num)]
  push_cast
  norm_num

theorem c05_val : RN (5/10 : ℚ) = 1/2 := by
  rw [show (5/10 : ℚ) = ((1:ℕ) : ℚ) * 2 ^ (-1 : ℤ) by push_cast; norm_num,
    RN_dyadic 1 (-1) (by norm_num) (by norm_num)]
  push_cast
  norm_num

theorem c035_val : RN (35/100 : ℚ) = 6305039478318694 * (2:ℚ) ^ (-54 : ℤ) := by
  have h := RN_eval (35/100) (-2) 6305039478318694 (by norm_num) (by norm_num) (by norm_num)
    (rhe_eq_low _ 6305039478318694 (by norm_num) (by norm_num))
  rw [h]
  norm_num

theorem c030_val : RN (30/100 : ℚ) = 5404319552844595 * (2:ℚ) ^ (-54 : ℤ) := by
  have h := RN_eval (30/100) (-2) 5404319552844595 (by norm_num) (by norm_num) (by norm_num)
    (rhe_eq_low _ 5404319552844595 (by norm_num) (by norm_num))
  rw [h]
  norm_num

theorem c020_val : RN (20/100 : ℚ) = 7205759403792794 * (2:ℚ) ^ (-55 : ℤ) := by
  have h := RN_eval (20/100) (-3) 7205759403792794 (by norm_num) (by norm_num) (by norm_num)
    (by rw [rhe_eq_high _ 7205759403792793 (by norm_num) (by norm_num)]; norm_num)
  rw [h]
  norm_num

theorem c008_val : RN (8/100 : ℚ) = 5764607523034235 * (2:ℚ) ^ (-56 : ℤ) := by
  have h := RN_eval (8/100) (-4) 5764607523034235 (by norm_num) (by norm_num) (by norm_num)
    (by rw [rhe_eq_high _ 5764607523034234 (by norm_num) (by norm_num)]; norm_num)
  rw [h]
  norm_num

theorem c002_val : RN (2/100 : ℚ) = 5764607523034235 * (2:ℚ) ^ (-58 : ℤ) := by
  have h := RN_eval (2/100) (-6) 5764607523034235 (by norm_num) (by norm_num) (by norm_num)
    (by rw [rhe_eq_high _ 5764607523034234 (by norm_num) (by norm_num)]; norm_num)
  rw [h]
  norm_num

theorem c00254_val : RN (254/10000 : ℚ) = 7321051554253478 * (2:ℚ) ^ (-58 : ℤ) := by
  have h := RN_eval (254/10000) (-6) 7321051554253478 (by norm_num) (by norm_num) (by norm_num)
    (rhe_eq_low _ 7321051554253478 (by norm_num) (by norm_num))
  rw [h]
  norm_num

theorem dbl_eq (n : ℕ) (h : n < 2 ^ 53) : dbl n = n :=
  RN_natCast n h

/-!
### The overlay geometry of `OverlayRenderer.__init__` (overlay.py)
-/

/-- Source: `gap_pixels = int(0.02 * 96 / 0.0254)` (overlay.py line 25). -/
def gap_pixels : ℤ := pyInt (fdiv (fmul (RN (2/100)) (dbl 96)) (RN (254/10000)))

/-- Source: `lesion_width = int(0.20 * width)`. -/
def lesion_width (width : ℕ) : ℤ := pyInt (fmul (RN (20/100)) (dbl width))

/-- Source: `lesion_height = int(0.30 * height)`. -/
def lesion_height (height : ℕ) : ℤ := pyInt (fmul (RN (30/100)) (dbl height))

/-- Source: `lesion_x1 = int(0.25 * width)`. -/
def lesion_x1 (width : ℕ) : ℤ := pyInt (fmul (RN (25/100)) (dbl width))

/-- Source: `lesion_y1 = int(0.35 * height)`. -/
def lesion_y1 (height : ℕ) : ℤ := pyInt (fmul (RN (35/100)) (dbl height))

/-- Source: `self.coin_radius = int(0.08 * width)`. -/
def coin_radius_px (width : ℕ) : ℤ := pyInt (fmul (RN (8/100)) (dbl width))

/-- Source: `coin_y = int(0.5 * height)`. -/
def coin_y (height : ℕ) : ℤ := pyInt (fmul (RN (5/10)) (dbl height))

/-- The state set up by `OverlayRenderer.__init__`. -/
structure OverlayRenderer where
  width : ℕ
  height : ℕ
  lesion_box : ℤ × ℤ × ℤ × ℤ
  coin_radius : ℤ
  coin_center : ℤ × ℤ
  deriving DecidableEq

/-- `OverlayRenderer.__init__(width, height)`, overlay.py lines 12-44. -/
def OverlayRenderer.init (width height : ℕ) : OverlayRenderer :=
  { width := width
    height := height
    lesion_box := (lesion_x1 width, lesion_y1 height,
      lesion_x1 width + lesion_width width,
      lesion_y1 height + lesion_height height)
    coin_radius := coin_radius_px width
    coin_center := (lesion_x1 width + lesion_width width + gap_pixels + coin_radius_px width,
      coin_y height) }

theorem gap_mul_val : fmul (RN (2/100)) (dbl 96) = 8646911284551352 * (2:ℚ) ^ (-52 : ℤ) := by
  unfold fmul
  rw [c002_val, dbl_eq 96 (by norm_num)]
  have h := RN_eval (5764607523034235 * (2:ℚ) ^ (-58 : ℤ) * ((96:ℕ) : ℚ)) 0 8646911284551352
    (by push_cast; norm_num) (by push_cast; norm_num) (by push_cast; norm_num)
    (by rw [rhe_eq_tie_even _ 8646911284551352 (by push_cast; norm_num) (by omega)])
  rw [h]
  norm_num

theorem gap_div_val :
    fdiv (fmul (RN (2/100)) (dbl 96)) (RN (254/10000)) = 5319212158311609 * (2:ℚ) ^ (-46 : ℤ) := by
  unfold fdiv
  rw [gap_mul_val, c00254_val]
  have h := RN_eval
    (8646911284551352 * (2:ℚ) ^ (-52 : ℤ) / (7321051554253478 * (2:ℚ) ^ (-58 : ℤ))) 6
    5319212158311609 (by norm_num) (by norm_num) (by norm_num)
    (rhe_eq_low _ 5319212158311609 (by norm_num) (by norm_num))
  rw [h]
  norm_num

theorem gap_pixels_val : gap_pixels = 75 := by
  unfold gap_pixels
  rw [gap_div_val, pyInt_of_nonneg _ (by positivity)]
  exact Int.floor_eq_iff.mpr ⟨by norm_num, by norm_num⟩

/-!
### Generic bounds for the percentage computations
-/

theorem nat_div_bracket (m b : ℕ) (hb : 0 < b) :
    ((m / b : ℕ) : ℚ) ≤ (m : ℚ) / b ∧ (m : ℚ) / b < ((m / b : ℕ) : ℚ) + 1 := by
  have hmod := Nat.div_add_mod m b
  have hlt : m % b < b := Nat.mod_lt m hb
  have hbq : (0:ℚ) < b := by exact_mod_cast hb
  have hcast : (b : ℚ) * ((m / b : ℕ) : ℚ) + ((m % b : ℕ) : ℚ) = (m : ℚ) := by
    exact_mod_cast congrArg (Nat.cast : ℕ → ℚ) hmod
  have hm0 : (0:ℚ) ≤ ((m % b : ℕ) : ℚ) := by positivity
  have hmb : ((m % b : ℕ) : ℚ) < (b : ℚ) := by exact_mod_cast hlt
  constructor
  · rw [le_div_iff₀ hbq]
    nlinarith
  · rw [div_lt_iff₀ hbq]
    nlinarith

theorem floor_nat_div (m b : ℕ) (hb : 0 < b) : ⌊(m : ℚ) / (b : ℚ)⌋ = ((m / b : ℕ) : ℤ) := by
  rcases nat_div_bracket m b hb with ⟨h1, h2⟩
  refine Int.floor_eq_iff.mpr ⟨?_, ?_⟩
  · push_cast
    exact h1
  · push_cast
    exact h2

theorem pyInt_fmul_nonneg (c : ℚ) (n : ℕ) (hc : 0 ≤ c) : 0 ≤ pyInt (fmul (RN c) (dbl n)) := by
  unfold fmul dbl
  have h := RN_nonneg (RN c * RN (n : ℚ))
    (mul_nonneg (RN_nonneg c hc) (RN_nonneg _ (Nat.cast_nonneg n)))
  rw [pyInt_of_nonneg _ h]
  exact Int.floor_nonneg.mpr h

/-- Loose upper bound on `int(c * n)` computed in binary64, valid for every
dimension `n` with no size restriction. -/
theorem pct_upper_loose (c : ℚ) (n : ℕ) (hc : 0 ≤ c) :
    (pyInt (fmul (RN c) (dbl n)) : ℚ) ≤ c * n * (1 + (2:ℚ) ^ (-53 : ℤ)) ^ 3 := by
  unfold fmul dbl
  have heps : (0:ℚ) < 1 + (2:ℚ) ^ (-53 : ℤ) := by positivity
  have h1 : RN c ≤ c * (1 + (2:ℚ) ^ (-53 : ℤ)) := RN_le c hc
  have h1n : 0 ≤ RN c := RN_nonneg c hc
  have h2 : RN (n : ℚ) ≤ (n : ℚ) * (1 + (2:ℚ) ^ (-53 : ℤ)) := RN_le _ (Nat.cast_nonneg n)
  have h2n : 0 ≤ RN (n : ℚ) := RN_nonneg _ (Nat.cast_nonneg n)
  have hprod : RN c * RN (n : ℚ) ≤
      c * (1 + (2:ℚ) ^ (-53 : ℤ)) * ((n : ℚ) * (1 + (2:ℚ) ^ (-53 : ℤ))) :=
    mul_le_mul h1 h2 h2n (by positivity)
  have h3 : RN (RN c * RN (n : ℚ)) ≤ RN c * RN (n : ℚ) * (1 + (2:ℚ) ^ (-53 : ℤ)) :=
    RN_le _ (mul_nonneg h1n h2n)
  have h4 : RN c * RN (n : ℚ) * (1 + (2:ℚ) ^ (-53 : ℤ)) ≤
      c * (1 + (2:ℚ) ^ (-53 : ℤ)) * ((n : ℚ) * (1 + (2:ℚ) ^ (-53 : ℤ))) *
        (1 + (2:ℚ) ^ (-53 : ℤ)) :=
    mul_le_mul_of_nonneg_right hprod (le_of_lt heps)
  have h5 : (pyInt (RN (RN c * RN (n : ℚ))) : ℚ) ≤ RN (RN c * RN (n : ℚ)) := by
    rw [pyInt_of_nonneg _ (RN_nonneg _ (mul_nonneg h1n h2n))]
    exact Int.floor_le _
  calc (pyInt (RN (RN c * RN (n : ℚ))) : ℚ)
      ≤ RN (RN c * RN (n : ℚ)) := h5
    _ ≤ c * (1 + (2:ℚ) ^ (-53 : ℤ)) * ((n : ℚ) * (1 + (2:ℚ) ^ (-53 : ℤ))) *
        (1 + (2:ℚ) ^ (-53 : ℤ)) := le_trans h3 h4
    _ = c * n * (1 + (2:ℚ) ^ (-53 : ℤ)) ^ 3 := by ring

/-- Two-sided bound for `int(RN(a/100) * n)` for practical dimensions
(`n ≤ 2^40`): the result is the exact truncated percentage or one below it. -/
theorem pct_bounds (a n : ℕ) (ha1 : 1 ≤ a) (ha2 : a ≤ 50) (hn1 : 1 ≤ n) (hn2 : n ≤ 2 ^ 40) :
    ((a * n / 100 : ℕ) : ℤ) - 1 ≤ pyInt (fmul (RN ((a : ℚ) / 100)) (dbl n)) ∧
      pyInt (fmul (RN ((a : ℚ) / 100)) (dbl n)) ≤ ((a * n / 100 : ℕ) : ℤ) := by
  have hr_pos : (0:ℚ) < (a : ℚ) / 100 := by
    have : (0:ℚ) < (a : ℚ) := by exact_mod_cast ha1
    positivity
  have hdbl : dbl n = (n : ℚ) := dbl_eq n (lt_of_le_of_lt hn2 (by norm_num))
  unfold fmul
  rw [hdbl]
  have hε : ((2:ℚ) ^ (-53 : ℤ)) = 1 / 9007199254740992 := by norm_num
  have hnq : (1:ℚ) ≤ (n : ℚ) := by exact_mod_cast hn1
  have hnb : (n : ℚ) ≤ 1099511627776 := by exact_mod_cast hn2
  have haq : (1:ℚ) ≤ (a : ℚ) := by exact_mod_cast ha1
  have hab : (a : ℚ) ≤ 50 := by exact_mod_cast ha2
  -- the exact product and its size
  have hrn_eq : (a : ℚ) / 100 * n = (a * n : ℕ) / 100 := by
    push_cast
    ring
  have hrn_le : (a : ℚ) / 100 * n ≤ 549755813888 := by
    rw [div_mul_eq_mul_div, div_le_iff₀ (by norm_num : (0:ℚ) < 100)]
    nlinarith
  have hrn_nonneg : (0:ℚ) ≤ (a : ℚ) / 100 * n := by positivity
  -- rounding the constant
  have hc_le : RN ((a : ℚ) / 100) ≤ (a : ℚ) / 100 * (1 + (2:ℚ) ^ (-53 : ℤ)) :=
    RN_le _ (le_of_lt hr_pos)
  have hc_ge : (a : ℚ) / 100 * (1 - (2:ℚ) ^ (-53 : ℤ)) ≤ RN ((a : ℚ) / 100) :=
    RN_ge _ (le_of_lt hr_pos)
  have hc_nonneg : 0 ≤ RN ((a : ℚ) / 100) := RN_nonneg _ (le_of_lt hr_pos)
  -- the product before the final rounding
  have hq_le : RN ((a : ℚ) / 100) * n ≤ (a : ℚ) / 100 * n * (1 + (2:ℚ) ^ (-53 : ℤ)) := by
    have := mul_le_mul_of_nonneg_right hc_le (Nat.cast_nonneg (α := ℚ) n)
    linarith [this]
  have hq_ge : (a : ℚ) / 100 * n * (1 - (2:ℚ) ^ (-53 : ℤ)) ≤ RN ((a : ℚ) / 100) * n := by
    have := mul_le_mul_of_nonneg_right hc_ge (Nat.cast_nonneg (α := ℚ) n)
    linarith [this]
  have hq_nonneg : 0 ≤ RN ((a : ℚ) / 100) * n :=
    mul_nonneg hc_nonneg (Nat.cast_nonneg n)
  -- the final rounding
  have hv_le : RN (RN ((a : ℚ) / 100) * n) ≤
      (a : ℚ) / 100 * n * (1 + (2:ℚ) ^ (-53 : ℤ)) ^ 2 := by
    have h1 := RN_le _ hq_nonneg
    have h2 := mul_le_mul_of_nonneg_right hq_le
      (by positivity : (0:ℚ) ≤ 1 + (2:ℚ) ^ (-53 : ℤ))
    calc RN (RN ((a : ℚ) / 100) * n) ≤ RN ((a : ℚ) / 100) * n * (1 + (2:ℚ) ^ (-53 : ℤ)) := h1
      _ ≤ (a : ℚ) / 100 * n * (1 + (2:ℚ) ^ (-53 : ℤ)) * (1 + (2:ℚ) ^ (-53 : ℤ)) := h2
      _ = (a : ℚ) / 100 * n * (1 + (2:ℚ) ^ (-53 : ℤ)) ^ 2 := by ring
  have hv_ge : (a : ℚ) / 100 * n * (1 - (2:ℚ) ^ (-53 : ℤ)) ^ 2 ≤
      RN (RN ((a : ℚ) / 100) * n) := by
    have h1 := RN_ge _ hq_nonneg
    have h2 := mul_le_mul_of_nonneg_right hq_ge
      (by positivity : (0:ℚ) ≤ 1 - (2:ℚ) ^ (-53 : ℤ))
    calc (a : ℚ) / 100 * n * (1 - (2:ℚ) ^ (-53 : ℤ)) ^ 2
        = (a : ℚ) / 100 * n * (1 - (2:ℚ) ^ (-53 : ℤ)) * (1 - (2:ℚ) ^ (-53 : ℤ)) := by ring
      _ ≤ RN ((a : ℚ) / 100) * n * (1 - (2:ℚ) ^ (-53 : ℤ)) := h2
      _ ≤ RN (RN ((a : ℚ) / 100) * n) := h1
  -- the deviation of the product from the exact percentage is under 1/100
  have hdev_hi : (a : ℚ) / 100 * n * (1 + (2:ℚ) ^ (-53 : ℤ)) ^ 2 <
      (a : ℚ) / 100 * n + 1 / 100 := by
    have hfac : (1 + (2:ℚ) ^ (-53 : ℤ)) ^ 2 ≤ 1 + 1 / 2 ^ 51 := by
      rw [hε]
      norm_num
    have hmul := mul_le_mul_of_nonneg_left hfac hrn_nonneg
    have hsm : (a : ℚ) / 100 * n * (1 / 2 ^ 51) ≤ 549755813888 * (1 / 2 ^ 51) :=
      mul_le_mul_of_nonneg_right hrn_le (by norm_num)
    have hnum : (549755813888 : ℚ) * (1 / 2 ^ 51) < 1 / 100 := by norm_num
    nlinarith
  have hdev_lo : (a : ℚ) / 100 * n - 1 / 100 ≤
      (a : ℚ) / 100 * n * (1 - (2:ℚ) ^ (-53 : ℤ)) ^ 2 := by
    have hfac : 1 - 1 / 2 ^ 51 ≤ (1 - (2:ℚ) ^ (-53 : ℤ)) ^ 2 := by
      rw [hε]
      norm_num
    have := mul_le_mul_of_nonneg_left hfac hrn_nonneg
    nlinarith [hrn_le]
  -- bracket the exact percentage by the truncated one
  have hK := nat_div_bracket (a * n) 100 (by norm_num)
  have hKfrac : ((a * n : ℕ) : ℚ) / 100 ≤ ((a * n / 100 : ℕ) : ℚ) + 99 / 100 := by
    have hmod := Nat.div_add_mod (a * n) 100
    have hlt : a * n % 100 ≤ 99 := by omega
    have hcast : (100 : ℚ) * ((a * n / 100 : ℕ) : ℚ) + ((a * n % 100 : ℕ) : ℚ) =
        ((a * n : ℕ) : ℚ) := by
      exact_mod_cast congrArg (Nat.cast : ℕ → ℚ) hmod
    have hltq : ((a * n % 100 : ℕ) : ℚ) ≤ 99 := by exact_mod_cast hlt
    rw [div_le_iff₀ (by norm_num : (0:ℚ) < 100)]
    nlinarith
  have hvnn : 0 ≤ RN (RN ((a : ℚ) / 100) * n) := RN_nonneg _ hq_nonneg
  rw [pyInt_of_nonneg _ hvnn]
  rw [hrn_eq] at hv_ge hv_le
  rw [show ((100:ℕ):ℚ) = 100 by norm_num] at hK
  constructor
  · rw [Int.le_floor]
    rw [hrn_eq] at hdev_lo
    have hcast : ((((a * n / 100 : ℕ) : ℤ) - 1 : ℤ) : ℚ) = ((a * n / 100 : ℕ) : ℚ) - 1 := by
      generalize (a * n / 100 : ℕ) = K
      push_cast
      ring
    rw [hcast]
    linarith [hK.1, hdev_lo, hv_ge]
  · have h2 : ⌊RN (RN ((a : ℚ) / 100) * n)⌋ < ((a * n / 100 : ℕ) : ℤ) + 1 := by
      rw [Int.floor_lt]
      rw [hrn_eq] at hdev_hi
      have hcast : ((((a * n / 100 : ℕ) : ℤ) + 1 : ℤ) : ℚ) = ((a * n / 100 : ℕ) : ℚ) + 1 := by
        generalize (a * n / 100 : ℕ) = K
        push_cast
        ring
      rw [hcast]
      linarith [hKfrac, hdev_hi, hv_le]
    omega

/-- `int(RN(q))` when `q` is in the rounding neighborhood of the integer `d`. -/
theorem pyInt_RN_eq_of_near (v : ℚ) (n d : ℕ) (h1 : 1 ≤ d) (h2 : d < 2 ^ 53)
    (hlo : (d:ℚ) - v * n ≤ d * (1/18014398509481984))
    (hhi : v * n - d ≤ d * (1/18014398509481984)) :
    pyInt (RN (v * n)) = d := by
  have hE : (1/18014398509481984 : ℚ) = (2:ℚ) ^ (-54:ℤ) := by norm_num
  rw [hE] at hlo hhi
  rw [RN_fix_near d (v * n) h1 h2 hlo hhi, pyInt_of_nonneg _ (by positivity),
    Int.floor_natCast]

/-- `int(RN(q))` when `q` is bracketed strictly inside `(K, K+1)` with margin
`1/100` on each side, enough to absorb the final rounding. -/
theorem pyInt_RN_eq_of_bracket (q : ℚ) (K : ℕ) (hK : (K:ℚ) ≤ 2 ^ 46)
    (hlo : (K:ℚ) + 1/100 ≤ q) (hhi : q ≤ (K:ℚ) + 1 - 1/100) :
    pyInt (RN q) = K := by
  have hKn : (0:ℚ) ≤ K := Nat.cast_nonneg K
  have hq0 : (0:ℚ) ≤ q := by linarith
  have h1 := RN_le q hq0
  have h2 := RN_ge q hq0
  have hε : ((2:ℚ) ^ (-53:ℤ)) = 1/9007199254740992 := by norm_num
  rw [hε] at h1 h2
  rw [pyInt_of_nonneg _ (RN_nonneg q hq0)]
  have hup : RN q < (K:ℚ) + 1 := by nlinarith
  have hdn : (K:ℚ) ≤ RN q := by nlinarith
  refine Int.floor_eq_iff.mpr ⟨?_, ?_⟩
  · push_cast
    exact hdn
  · push_cast
    exact hup

/-- `int(0.20 * n)` is exactly the truncated 20 percent for every practical
dimension: binary64 0.2 exceeds 1/5 by exactly (1/5) * 2^(-54), so on
multiples of 5 the product stays inside the rounding neighborhood of the
exact integer, and otherwise the fractional part, at least 1/5, dwarfs the
error. -/
theorem lesion_width_exact (n : ℕ) (hn1 : 1 ≤ n) (hn2 : n ≤ 2 ^ 40) :
    lesion_width n = ((20 * n / 100 : ℕ) : ℤ) := by
  unfold lesion_width fmul
  rw [c020_val, dbl_eq n (lt_of_le_of_lt hn2 (by norm_num))]
  have hKeq : (20 * n / 100 : ℕ) = n / 5 := by omega
  rw [hKeq]
  by_cases h5 : n % 5 = 0
  · have hd : n = 5 * (n / 5) := by omega
    have hdq : (n:ℚ) = 5 * ((n / 5 : ℕ) : ℚ) := by
      exact_mod_cast congrArg (Nat.cast : ℕ → ℚ) hd
    have h5v : 5 * (7205759403792794 * (2:ℚ) ^ (-55:ℤ)) = 1 + 1/18014398509481984 := by
      norm_num
    have hprod : 7205759403792794 * (2:ℚ) ^ (-55:ℤ) * (n:ℚ) =
        ((n / 5 : ℕ) : ℚ) * (1 + 1/18014398509481984) := by
      rw [hdq]
      calc 7205759403792794 * (2:ℚ) ^ (-55:ℤ) * (5 * ((n / 5 : ℕ) : ℚ))
          = 5 * (7205759403792794 * (2:ℚ) ^ (-55:ℤ)) * ((n / 5 : ℕ) : ℚ) := by ring
        _ = (1 + 1/18014398509481984) * ((n / 5 : ℕ) : ℚ) := by rw [h5v]
        _ = ((n / 5 : ℕ) : ℚ) * (1 + 1/18014398509481984) := by ring
    have hd0 : (0:ℚ) ≤ ((n / 5 : ℕ) : ℚ) := Nat.cast_nonneg _
    apply pyInt_RN_eq_of_near _ n (n / 5) (by omega) (by omega)
    · rw [hprod]
      linarith
    · rw [hprod]
      linarith
  · have hmod : n = 5 * (n / 5) + n % 5 := (Nat.div_add_mod n 5).symm
    have hcast : (n:ℚ) = 5 * ((n / 5 : ℕ) : ℚ) + ((n % 5 : ℕ) : ℚ) := by
      exact_mod_cast congrArg (Nat.cast : ℕ → ℚ) hmod
    have hmq1 : (1:ℚ) ≤ ((n % 5 : ℕ) : ℚ) := by
      have : 1 ≤ n % 5 := by omega
      exact_mod_cast this
    have hmq4 : ((n % 5 : ℕ) : ℚ) ≤ 4 := by
      have : n % 5 ≤ 4 := by omega
      exact_mod_cast this
    have hnq : (n:ℚ) ≤ 1099511627776 := by exact_mod_cast hn2
    have hnn : (0:ℚ) ≤ (n:ℚ) := Nat.cast_nonneg n
    have hvlo : (1/5 : ℚ) * n ≤ 7205759403792794 * (2:ℚ) ^ (-55:ℤ) * n :=
      mul_le_mul_of_nonneg_right (by norm_num) hnn
    have hvhi : 7205759403792794 * (2:ℚ) ^ (-55:ℤ) * n ≤
        (1/5 + 1/90071992547409920 : ℚ) * n :=
      mul_le_mul_of_nonneg_right (by norm_num) hnn
    apply pyInt_RN_eq_of_bracket _ (n / 5)
    · have hb : n / 5 ≤ 2 ^ 40 := by omega
      calc ((n / 5 : ℕ) : ℚ) ≤ ((2 ^ 40 : ℕ) : ℚ) := by exact_mod_cast hb
        _ ≤ 2 ^ 46 := by norm_num
    · linarith
    · linarith

/-- `int(0.30 * n)` is exactly the truncated 30 percent for every practical
dimension: binary64 0.3 falls below 3/10 by (1/10) * 2^(-53), within the
rounding neighborhood on multiples of 10, and otherwise the fractional part,
at least 1/10, dwarfs the error. -/
theorem lesion_height_exact (n : ℕ) (hn1 : 1 ≤ n) (hn2 : n ≤ 2 ^ 40) :
    lesion_height n = ((30 * n / 100 : ℕ) : ℤ) := by
  unfold lesion_height fmul
  rw [c030_val, dbl_eq n (lt_of_le_of_lt hn2 (by norm_num))]
  have hKeq : (30 * n / 100 : ℕ) = 3 * n / 10 := by omega
  rw [hKeq]
  by_cases h10 : n % 10 = 0
  · have hd : n = 10 * (n / 10) := by omega
    have hKd : 3 * n / 10 = 3 * (n / 10) := by omega
    rw [hKd]
    have hdq : (n:ℚ) = 10 * ((n / 10 : ℕ) : ℚ) := by
      exact_mod_cast congrArg (Nat.cast : ℕ → ℚ) hd
    have h10v : 10 * (5404319552844595 * (2:ℚ) ^ (-54:ℤ)) = 3 - 1/9007199254740992 := by
      norm_num
    have hprod : 5404319552844595 * (2:ℚ) ^ (-54:ℤ) * (n:ℚ) =
        ((n / 10 : ℕ) : ℚ) * (3 - 1/9007199254740992) := by
      rw [hdq]
      calc 5404319552844595 * (2:ℚ) ^ (-54:ℤ) * (10 * ((n / 10 : ℕ) : ℚ))
          = 10 * (5404319552844595 * (2:ℚ) ^ (-54:ℤ)) * ((n / 10 : ℕ) : ℚ) := by ring
        _ = (3 - 1/9007199254740992) * ((n / 10 : ℕ) : ℚ) := by rw [h10v]
        _ = ((n / 10 : ℕ) : ℚ) * (3 - 1/9007199254740992) := by ring
    have hd0 : (0:ℚ) ≤ ((n / 10 : ℕ) : ℚ) := Nat.cast_nonneg _
    have hdc : ((3 * (n / 10) : ℕ) : ℚ) = 3 * ((n / 10 : ℕ) : ℚ) := by push_cast; ring
    apply pyInt_RN_eq_of_near _ n (3 * (n / 10)) (by omega) (by omega)
    · rw [hprod, hdc]
      linarith
    · rw [hprod, hdc]
      linarith
  · have hmod : 3 * n = 10 * (3 * n / 10) + 3 * n % 10 := (Nat.div_add_mod (3 * n) 10).symm
    have hcast : 3 * (n:ℚ) = 10 * ((3 * n / 10 : ℕ) : ℚ) + ((3 * n % 10 : ℕ) : ℚ) := by
      exact_mod_cast congrArg (Nat.cast : ℕ → ℚ) hmod
    have hmq1 : (1:ℚ) ≤ ((3 * n % 10 : ℕ) : ℚ) := by
      have : 1 ≤ 3 * n % 10 := by omega
      exact_mod_cast this
    have hmq9 : ((3 * n % 10 : ℕ) : ℚ) ≤ 9 := by
      have : 3 * n % 10 ≤ 9 := by omega
      exact_mod_cast this
    have hnq : (n:ℚ) ≤ 1099511627776 := by exact_mod_cast hn2
    have hnn : (0:ℚ) ≤ (n:ℚ) := Nat.cast_nonneg n
    have hvlo : (3/10 - 1/90071992547409920 : ℚ) * n ≤
        5404319552844595 * (2:ℚ) ^ (-54:ℤ) * n :=
      mul_le_mul_of_nonneg_right (by norm_num) hnn
    have hvhi : 5404319552844595 * (2:ℚ) ^ (-54:ℤ) * n ≤ (3/10 : ℚ) * n :=
      mul_le_mul_of_nonneg_right (by norm_num) hnn
    apply pyInt_RN_eq_of_bracket _ (3 * n / 10)
    · have hb : 3 * n / 10 ≤ 2 ^ 40 := by omega
      calc ((3 * n / 10 : ℕ) : ℚ) ≤ ((2 ^ 40 : ℕ) : ℚ) := by exact_mod_cast hb
        _ ≤ 2 ^ 46 := by norm_num
    · linarith
    · linarith

/-- `int(0.08 * n)` is exactly the truncated 8 percent for every practical
dimension: binary64 0.08 exceeds 2/25 by (3/25) * 2^(-56), within the
rounding neighborhood on multiples of 25, and otherwise the fractional part,
at least 1/25, dwarfs the error. -/
theorem coin_radius_exact (n : ℕ) (hn1 : 1 ≤ n) (hn2 : n ≤ 2 ^ 40) :
    coin_radius_px n = ((8 * n / 100 : ℕ) : ℤ) := by
  unfold coin_radius_px fmul
  rw [c008_val, dbl_eq n (lt_of_le_of_lt hn2 (by norm_num))]
  have hKeq : (8 * n / 100 : ℕ) = 2 * n / 25 := by omega
  rw [hKeq]
  by_cases h25 : n % 25 = 0
  · have hd : n = 25 * (n / 25) := by omega
    have hKd : 2 * n / 25 = 2 * (n / 25) := by omega
    rw [hKd]
    have hdq : (n:ℚ) = 25 * ((n / 25 : ℕ) : ℚ) := by
      exact_mod_cast congrArg (Nat.cast : ℕ → ℚ) hd
    have h25v : 25 * (5764607523034235 * (2:ℚ) ^ (-56:ℤ)) = 2 + 3/72057594037927936 := by
      norm_num
    have hprod : 5764607523034235 * (2:ℚ) ^ (-56:ℤ) * (n:ℚ) =
        ((n / 25 : ℕ) : ℚ) * (2 + 3/72057594037927936) := by
      rw [hdq]
      calc 5764607523034235 * (2:ℚ) ^ (-56:ℤ) * (25 * ((n / 25 : ℕ) : ℚ))
          = 25 * (5764607523034235 * (2:ℚ) ^ (-56:ℤ)) * ((n / 25 : ℕ) : ℚ) := by ring
        _ = (2 + 3/72057594037927936) * ((n / 25 : ℕ) : ℚ) := by rw [h25v]
        _ = ((n / 25 : ℕ) : ℚ) * (2 + 3/72057594037927936) := by ring
    have hd0 : (0:ℚ) ≤ ((n / 25 : ℕ) : ℚ) := Nat.cast_nonneg _
    have hdc : ((2 * (n / 25) : ℕ) : ℚ) = 2 * ((n / 25 : ℕ) : ℚ) := by push_cast; ring
    apply pyInt_RN_eq_of_near _ n (2 * (n / 25)) (by omega) (by omega)
    · rw [hprod, hdc]
      linarith
    · rw [hprod, hdc]
      linarith
  · have hmod : 2 * n = 25 * (2 * n / 25) + 2 * n % 25 := (Nat.div_add_mod (2 * n) 25).symm
    have hcast : 2 * (n:ℚ) = 25 * ((2 * n / 25 : ℕ) : ℚ) + ((2 * n % 25 : ℕ) : ℚ) := by
      exact_mod_cast congrArg (Nat.cast : ℕ → ℚ) hmod
    have hmq1 : (1:ℚ) ≤ ((2 * n % 25 : ℕ) : ℚ) := by
      have : 1 ≤ 2 * n % 25 := by omega
      exact_mod_cast this
    have hmq24 : ((2 * n % 25 : ℕ) : ℚ) ≤ 24 := by
      have : 2 * n % 25 ≤ 24 := by omega
      exact_mod_cast this
    have hnq : (n:ℚ) ≤ 1099511627776 := by exact_mod_cast hn2
    have hnn : (0:ℚ) ≤ (n:ℚ) := Nat.cast_nonneg n
    have hvlo : (2/25 : ℚ) * n ≤ 5764607523034235 * (2:ℚ) ^ (-56:ℤ) * n :=
      mul_le_mul_of_nonneg_right (by norm_num) hnn
    have hvhi : 5764607523034235 * (2:ℚ) ^ (-56:ℤ) * n ≤
        (2/25 + 1/18014398509481984 : ℚ) * n :=
      mul_le_mul_of_nonneg_right (by norm_num) hnn
    apply pyInt_RN_eq_of_bracket _ (2 * n / 25)
    · have hb : 2 * n / 25 ≤ 2 ^ 40 := by omega
      calc ((2 * n / 25 : ℕ) : ℚ) ≤ ((2 ^ 40 : ℕ) : ℚ) := by exact_mod_cast hb
        _ ≤ 2 ^ 46 := by norm_num
    · linarith
    · linarith

/-- `int(0.25 * width)` is the exact truncated quarter: 0.25 is a power of
two, so no rounding happens for practical widths. -/
theorem lesion_x1_exact (w : ℕ) (hw1 : 1 ≤ w) (hw2 : w ≤ 2 ^ 40) :
    lesion_x1 w = ((w / 4 : ℕ) : ℤ) := by
  unfold lesion_x1 fmul
  rw [c025_val, dbl_eq w (lt_of_le_of_lt hw2 (by norm_num))]
  have hq : (1/4 : ℚ) * (w : ℚ) = (w : ℚ) * 2 ^ (-2 : ℤ) := by
    rw [show (2:ℚ) ^ (-2:ℤ) = 1/4 by norm_num]
    ring
  rw [hq, RN_dyadic w (-2) hw1 (lt_of_le_of_lt hw2 (by norm_num))]
  have hdiv : (w : ℚ) * 2 ^ (-2 : ℤ) = (w : ℚ) / ((4:ℕ) : ℚ) := by
    rw [show (2:ℚ) ^ (-2:ℤ) = 1/4 by norm_num]
    push_cast
    ring
  rw [hdiv, pyInt_of_nonneg _ (by positivity)]
  exact floor_nat_div w 4 (by norm_num)

/-- `int(0.5 * height)` is the exact truncated half. -/
theorem coin_y_exact (h : ℕ) (hh1 : 1 ≤ h) (hh2 : h ≤ 2 ^ 40) :
    coin_y h = ((h / 2 : ℕ) : ℤ) := by
  unfold coin_y fmul
  rw [c05_val, dbl_eq h (lt_of_le_of_lt hh2 (by norm_num))]
  have hq : (1/2 : ℚ) * (h : ℚ) = (h : ℚ) * 2 ^ (-1 : ℤ) := by
    rw [show (2:ℚ) ^ (-1:ℤ) = 1/2 by norm_num]
    ring
  rw [hq, RN_dyadic h (-1) hh1 (lt_of_le_of_lt hh2 (by norm_num))]
  have hdiv : (h : ℚ) * 2 ^ (-1 : ℤ) = (h : ℚ) / ((2:ℕ) : ℚ) := by
    rw [show (2:ℚ) ^ (-1:ℤ) = 1/2 by norm_num]
    push_cast
    ring
  rw [hdiv, pyInt_of_nonneg _ (by positivity)]
  exact floor_nat_div h 2 (by norm_num)

/-- `int(0.35 * 360)` is 125 in binary64 arithmetic, one below the exact
truncated percentage 126: 0.35 rounds below 35/100 and the product crosses
the integer 126 from above. -/
theorem lesion_y1_360 : lesion_y1 360 = 125 := by
  unfold lesion_y1 fmul
  rw [c035_val, dbl_eq 360 (by norm_num)]
  have h := RN_eval (6305039478318694 * (2:ℚ) ^ (-54 : ℤ) * ((360:ℕ) : ℚ)) 6 8866461766385663
    (by push_cast; norm_num) (by push_cast; norm_num) (by push_cast; norm_num)
    (rhe_eq_low _ 8866461766385663 (by push_cast; norm_num) (by push_cast; norm_num))
  rw [h, pyInt_of_nonneg _ (by positivity)]
  exact Int.floor_eq_iff.mpr ⟨by norm_num, by norm_num⟩

theorem lesion_x1_100 : lesion_x1 100 = 25 := by
  rw [lesion_x1_exact 100 (by norm_num) (by norm_num)]
  norm_num

theorem lesion_width_100 : lesion_width 100 = 20 := by
  unfold lesion_width fmul
  rw [c020_val, dbl_eq 100 (by norm_num)]
  have h := RN_eval (7205759403792794 * (2:ℚ) ^ (-55 : ℤ) * ((100:ℕ) : ℚ)) 4 5629499534213120
    (by push_cast; norm_num) (by push_cast; norm_num) (by push_cast; norm_num)
    (rhe_eq_low _ 5629499534213120 (by push_cast; norm_num) (by push_cast; norm_num))
  rw [h, pyInt_of_nonneg _ (by positivity)]
  exact Int.floor_eq_iff.mpr ⟨by norm_num, by norm_num⟩

theorem coin_radius_100 : coin_radius_px 100 = 8 := by
  unfold coin_radius_px fmul
  rw [c008_val, dbl_eq 100 (by norm_num)]
  have h := RN_eval (5764607523034235 * (2:ℚ) ^ (-56 : ℤ) * ((100:ℕ) : ℚ)) 3 4503599627370496
    (by push_cast; norm_num) (by push_cast; norm_num) (by push_cast; norm_num)
    (rhe_eq_low _ 4503599627370496 (by push_cast; norm_num) (by push_cast; norm_num))
  rw [h, pyInt_of_nonneg _ (by positivity)]
  exact Int.floor_eq_iff.mpr ⟨by norm_num, by norm_num⟩

/-!
### Claims about the overlay geometry
-/

/-- C1 counterexample: the claim says the lesion y is the integer-truncated
35 percent of the height for every height, but at the real resolution 640x360
the source computes `int(0.35 * 360) = 125` in binary64 while the truncated
percentage is 126. -/
theorem c1_counterexample :
    (OverlayRenderer.init 640 360).lesion_box.2.1 ≠ ((35 * 360 / 100 : ℕ) : ℤ) := by
  show lesion_y1 360 ≠ ((35 * 360 / 100 : ℕ) : ℤ)
  rw [lesion_y1_360]
  norm_num

/-- C1 (amended): for practical frame sizes the lesion box is
`(x, y, x + w, y + h)` and the coin center is
`(box right edge + gap + radius, int(0.5 * height))`; `x` is the truncated
25 percent of the width, `w` the truncated 20 percent, `h` the truncated
30 percent, the radius the truncated 8 percent and the center y the
truncated half, all exact; only `y`, the 35 percent term, equals the
integer-truncated percentage or falls exactly one pixel below it, because
binary64 0.35 lies below 35/100 (as happens at height 360). -/
theorem c1_amended (w h : ℕ) (hw1 : 1 ≤ w) (hh1 : 1 ≤ h)
    (hw2 : w ≤ 2 ^ 40) (hh2 : h ≤ 2 ^ 40) :
    (OverlayRenderer.init w h).lesion_box =
      (lesion_x1 w, lesion_y1 h, lesion_x1 w + lesion_width w,
        lesion_y1 h + lesion_height h) ∧
    (OverlayRenderer.init w h).coin_center.1 =
      lesion_x1 w + lesion_width w + gap_pixels + (OverlayRenderer.init w h).coin_radius ∧
    (OverlayRenderer.init w h).coin_center.2 = ((h / 2 : ℕ) : ℤ) ∧
    lesion_x1 w = ((w / 4 : ℕ) : ℤ) ∧
    lesion_width w = ((20 * w / 100 : ℕ) : ℤ) ∧
    lesion_height h = ((30 * h / 100 : ℕ) : ℤ) ∧
    (OverlayRenderer.init w h).coin_radius = ((8 * w / 100 : ℕ) : ℤ) ∧
    ((35 * h / 100 : ℕ) : ℤ) - 1 ≤ lesion_y1 h ∧ lesion_y1 h ≤ ((35 * h / 100 : ℕ) : ℤ) := by
  have h35 := pct_bounds 35 h (by norm_num) (by norm_num) hh1 hh2
  rw [show ((35:ℕ):ℚ) = 35 from by norm_num] at h35
  exact ⟨rfl, rfl, coin_y_exact h hh1 hh2, lesion_x1_exact w hw1 hw2,
    lesion_width_exact w hw1 hw2, lesion_height_exact h hh1 hh2,
    coin_radius_exact w hw1 hw2, h35.1, h35.2⟩

/-- C1 amended theorem instantiated at 640x480. -/
theorem c1_amended_witness :
    (640:ℕ) ≤ 2 ^ 40 ∧ lesion_x1 640 = ((640 / 4 : ℕ) : ℤ) :=
  ⟨by norm_num,
    (c1_amended 640 480 (by norm_num) (by norm_num) (by norm_num) (by norm_num)).2.2.2.1⟩

/-- C2: for every width and height at least 100, the lesion box is fully
contained in `[0, width) x [0, height)`. -/
theorem c2_lesion_box_contained (w h : ℕ) (hw : 100 ≤ w) (hh : 100 ≤ h) :
    0 ≤ (OverlayRenderer.init w h).lesion_box.1 ∧
      0 ≤ (OverlayRenderer.init w h).lesion_box.2.1 ∧
      (OverlayRenderer.init w h).lesion_box.2.2.1 < (w : ℤ) ∧
      (OverlayRenderer.init w h).lesion_box.2.2.2 < (h : ℤ) := by
  have hwq : (100:ℚ) ≤ (w:ℚ) := by exact_mod_cast hw
  have hhq : (100:ℚ) ≤ (h:ℚ) := by exact_mod_cast hh
  have hcube : (1 + (2:ℚ) ^ (-53:ℤ)) ^ 3 ≤ 1 + 1/2^50 := by norm_num
  refine ⟨?_, ?_, ?_, ?_⟩
  · show 0 ≤ lesion_x1 w
    exact pyInt_fmul_nonneg (25/100) w (by norm_num)
  · show 0 ≤ lesion_y1 h
    exact pyInt_fmul_nonneg (35/100) h (by norm_num)
  · show lesion_x1 w + lesion_width w < (w : ℤ)
    have h1 := pct_upper_loose (25/100) w (by norm_num)
    have h2 := pct_upper_loose (20/100) w (by norm_num)
    have e1 : (25/100 : ℚ) * w * ((1 + (2:ℚ)^(-53:ℤ))^3) ≤ 25/100 * w * (1 + 1/2^50) :=
      mul_le_mul_of_nonneg_left hcube (by positivity)
    have e2 : (20/100 : ℚ) * w * ((1 + (2:ℚ)^(-53:ℤ))^3) ≤ 20/100 * w * (1 + 1/2^50) :=
      mul_le_mul_of_nonneg_left hcube (by positivity)
    have hcoef : (45/100 : ℚ) * (1 + 1/2^50) < 1 := by norm_num
    have hwpos : (0:ℚ) < w := by linarith
    have hmul := mul_lt_mul_of_pos_right hcoef hwpos
    have hsum : ((lesion_x1 w + lesion_width w : ℤ) : ℚ) < (w : ℚ) := by
      push_cast
      unfold lesion_x1 lesion_width
      nlinarith [h1, h2]
    exact_mod_cast hsum
  · show lesion_y1 h + lesion_height h < (h : ℤ)
    have h1 := pct_upper_loose (35/100) h (by norm_num)
    have h2 := pct_upper_loose (30/100) h (by norm_num)
    have e1 : (35/100 : ℚ) * h * ((1 + (2:ℚ)^(-53:ℤ))^3) ≤ 35/100 * h * (1 + 1/2^50) :=
      mul_le_mul_of_nonneg_left hcube (by positivity)
    have e2 : (30/100 : ℚ) * h * ((1 + (2:ℚ)^(-53:ℤ))^3) ≤ 30/100 * h * (1 + 1/2^50) :=
      mul_le_mul_of_nonneg_left hcube (by positivity)
    have hcoef : (65/100 : ℚ) * (1 + 1/2^50) < 1 := by norm_num
    have hhpos : (0:ℚ) < h := by linarith
    have hmul := mul_lt_mul_of_pos_right hcoef hhpos
    have hsum : ((lesion_y1 h + lesion_height h : ℤ) : ℚ) < (h : ℚ) := by
      push_cast
      unfold lesion_y1 lesion_height
      nlinarith [h1, h2]
    exact_mod_cast hsum

/-- C2 theorem instantiated at 640x480. -/
theorem c2_witness :
    (100:ℕ) ≤ 640 ∧ (100:ℕ) ≤ 480 ∧ 0 ≤ (OverlayRenderer.init 640 480).lesion_box.1 :=
  ⟨by norm_num, by norm_num,
    (c2_lesion_box_contained 640 480 (by norm_num) (by norm_num)).1⟩

/-- C3 counterexample: at 640x480 the coin circle's leftmost point is not
strictly greater than the lesion box right edge plus the gap — the two are
equal by construction. -/
theorem c3_counterexample :
    ¬((OverlayRenderer.init 640 480).lesion_box.2.2.1 + gap_pixels <
      (OverlayRenderer.init 640 480).coin_center.1 -
        (OverlayRenderer.init 640 480).coin_radius) := by
  show ¬(lesion_x1 640 + lesion_width 640 + gap_pixels <
    lesion_x1 640 + lesion_width 640 + gap_pixels + coin_radius_px 640 - coin_radius_px 640)
  omega

/-- C3 (amended): for every frame size, the coin circle's leftmost point
equals the lesion box's right edge plus the fixed gap exactly; since the gap
is positive the guides never overlap, but the separation is not strict beyond
the gap. -/
theorem c3_amended (w h : ℕ) :
    (OverlayRenderer.init w h).coin_center.1 - (OverlayRenderer.init w h).coin_radius =
      (OverlayRenderer.init w h).lesion_box.2.2.1 + gap_pixels ∧ 0 < gap_pixels := by
  constructor
  · show lesion_x1 w + lesion_width w + gap_pixels + coin_radius_px w - coin_radius_px w =
      lesion_x1 w + lesion_width w + gap_pixels
    omega
  · rw [gap_pixels_val]
    norm_num

/-- C4: the gap is a fixed constant independent of the frame size, but it
evaluates to 75 pixels, not the 7-8 pixels that a 2 mm offset at 96 DPI
comes to (the source wrote 2 mm as 0.02 metres instead of 0.002). -/
theorem c4_gap_constant : gap_pixels = 75 ∧ ¬(gap_pixels ≤ 8) := by
  refine ⟨gap_pixels_val, ?_⟩
  rw [gap_pixels_val]
  norm_num

/-- C9: there are frame sizes of at least 100x100 — for example 100x100
itself — where the coin circle is not contained in the frame: its rightmost
point lies at or beyond the right frame edge. -/
theorem c9_coin_circle_overflows :
    ∃ w h : ℕ, 100 ≤ w ∧ 100 ≤ h ∧
      ((w : ℤ) ≤ (OverlayRenderer.init w h).coin_center.1 +
        (OverlayRenderer.init w h).coin_radius) := by
  refine ⟨100, 100, le_refl _, le_refl _, ?_⟩
  show ((100:ℕ) : ℤ) ≤ lesion_x1 100 + lesion_width 100 + gap_pixels + coin_radius_px 100 +
    coin_radius_px 100
  rw [lesion_x1_100, lesion_width_100, gap_pixels_val, coin_radius_100]
  norm_num

/-!
### Drawing model for `draw_static_guides` and `show_feedback`

OpenCV drawing primitives are external collaborators; what the claims are
about is which buffer they are applied to — whether the routine draws on a
fresh copy or mutates the caller's buffer in place.  A frame is its camera
content plus the ordered list of drawing operations applied to it; buffers
live in a small heap of numpy-array objects addressed by ids, so aliasing
and `frame.copy()` are explicit.
-/

/-- One OpenCV drawing call, with the arguments the source passes.
Font 0 is `cv2.FONT_HERSHEY_SIMPLEX`. -/
inductive DrawOp where
  | circle (center : ℤ × ℤ) (radius : ℤ) (color : ℕ × ℕ × ℕ) (thickness : ℤ)
  | rect (p1 p2 : ℤ × ℤ) (color : ℕ × ℕ × ℕ) (thickness : ℤ)
  | text (s : String) (org : ℤ × ℤ) (font : ℕ) (scale : ℚ) (color : ℕ × ℕ × ℕ)
      (thickness : ℤ)
  deriving DecidableEq

/-- A frame buffer: the camera pixel content (identified abstractly) plus the
drawing operations applied to it, in order. -/
structure Frame where
  content : ℕ
  ops : List DrawOp
  deriving DecidableEq

/-- A heap of frame buffers: `next` is the next fresh id; ids below `next`
are live. -/
structure Heap where
  next : ℕ
  store : ℕ → Frame

/-- `frame.copy()`: allocate a fresh buffer holding the same data. -/
def Heap.copyFrom (hp : Heap) (src : ℕ) : Heap × ℕ :=
  (⟨hp.next + 1, fun i => if i = hp.next then hp.store src else hp.store i⟩, hp.next)

/-- An in-place OpenCV drawing call on the buffer at id `f`. -/
def Heap.draw (hp : Heap) (f : ℕ) (op : DrawOp) : Heap :=
  ⟨hp.next, fun i =>
    if i = f then ⟨(hp.store i).content, (hp.store i).ops ++ [op]⟩ else hp.store i⟩

/-- `OverlayRenderer.draw_static_guides(frame)` (overlay.py lines 46-77):
copy the frame, draw the coin circle and the lesion rectangle in green with
thickness 2 on the copy, return the copy. -/
def draw_static_guides (r : OverlayRenderer) (hp : Heap) (frame : ℕ) : Heap × ℕ :=
  let c := hp.copyFrom frame
  let h1 := c.1.draw c.2 (.circle r.coin_center r.coin_radius (0, 255, 0) 2)
  let h2 := h1.draw c.2 (.rect (r.lesion_box.1, r.lesion_box.2.1)
    (r.lesion_box.2.2.1, r.lesion_box.2.2.2) (0, 255, 0) 2)
  (h2, c.2)

/-- `OverlayRenderer.show_feedback(frame, message, color)` (overlay.py lines
79-125): three `cv2.putText` calls directly on the frame passed in, then
return that same frame. -/
def show_feedback (r : OverlayRenderer) (hp : Heap) (frame : ℕ) (message : String)
    (color : ℕ × ℕ × ℕ) : Heap × ℕ :=
  let h1 := hp.draw frame (.text message (50, 40) 0 (7/10) color 2)
  let h2 := h1.draw frame (.text "Align coin inside circle"
    (r.coin_center.1 - 80, r.coin_center.2 - r.coin_radius - 15) 0 (1/2) (0, 255, 0) 1)
  let h3 := h2.draw frame (.text "Place lesion here"
    (r.lesion_box.1, r.lesion_box.2.1 - 10) 0 (1/2) (0, 255, 0) 1)
  (h3, frame)

/-- C5: `draw_static_guides` returns a fresh annotated copy — the returned id
is a new buffer carrying the original content with the circle and the
rectangle appended, and the caller's buffer is left untouched. -/
theorem c5_draw_copy_semantics (r : OverlayRenderer) (hp : Heap) (f : ℕ)
    (hf : f < hp.next) :
    (draw_static_guides r hp f).1.store f = hp.store f ∧
    (draw_static_guides r hp f).2 ≠ f ∧
    (draw_static_guides r hp f).1.store (draw_static_guides r hp f).2 =
      ⟨(hp.store f).content, (hp.store f).ops ++
        [.circle r.coin_center r.coin_radius (0, 255, 0) 2,
         .rect (r.lesion_box.1, r.lesion_box.2.1)
           (r.lesion_box.2.2.1, r.lesion_box.2.2.2) (0, 255, 0) 2]⟩ := by
  unfold draw_static_guides Heap.copyFrom Heap.draw
  refine ⟨?_, ?_, ?_⟩
  · simp only
    rw [if_neg (by omega), if_neg (by omega), if_neg (by omega)]
  · simp only
    omega
  · simp

/-- C5 theorem instantiated at a one-buffer heap. -/
theorem c5_witness :
    (0:ℕ) < 1 ∧
    (draw_static_guides (OverlayRenderer.init 640 480) ⟨1, fun _ => ⟨0, []⟩⟩ 0).1.store 0 =
      (⟨1, fun _ => ⟨0, []⟩⟩ : Heap).store 0 :=
  ⟨by norm_num,
    (c5_draw_copy_semantics (OverlayRenderer.init 640 480) ⟨1, fun _ => ⟨0, []⟩⟩ 0
      (by norm_num)).1⟩

/-- C10: `show_feedback` draws the banner and the two static labels directly
onto the frame it is given: it returns that same buffer id, allocates
nothing, appends the three text operations to the caller's buffer, and
touches no other buffer. -/
theorem c10_show_feedback_in_place (r : OverlayRenderer) (hp : Heap) (f : ℕ)
    (message : String) (color : ℕ × ℕ × ℕ) :
    (show_feedback r hp f message color).2 = f ∧
    (show_feedback r hp f message color).1.next = hp.next ∧
    (show_feedback r hp f message color).1.store f =
      ⟨(hp.store f).content, (hp.store f).ops ++
        [.text message (50, 40) 0 (7/10) color 2,
         .text "Align coin inside circle"
           (r.coin_center.1 - 80, r.coin_center.2 - r.coin_radius - 15) 0 (1/2)
           (0, 255, 0) 1,
         .text "Place lesion here" (r.lesion_box.1, r.lesion_box.2.1 - 10) 0 (1/2)
           (0, 255, 0) 1]⟩ ∧
    ∀ j, j ≠ f → (show_feedback r hp f message color).1.store j = hp.store j := by
  unfold show_feedback Heap.draw
  refine ⟨rfl, rfl, ?_, ?_⟩
  · simp
  · intro j hj
    simp only
    rw [if_neg hj, if_neg hj, if_neg hj]

/-- C10 theorem instantiated at a two-buffer heap: the other buffer is
untouched and the input buffer is returned. -/
theorem c10_witness :
    (show_feedback (OverlayRenderer.init 640 480) ⟨2, fun _ => ⟨0, []⟩⟩ 0 "m" (0, 255, 0)).2
      = 0 ∧
    (show_feedback (OverlayRenderer.init 640 480) ⟨2, fun _ => ⟨0, []⟩⟩ 0 "m"
        (0, 255, 0)).1.store 1 = (⟨2, fun _ => ⟨0, []⟩⟩ : Heap).store 1 :=
  ⟨(c10_show_feedback_in_place (OverlayRenderer.init 640 480) ⟨2, fun _ => ⟨0, []⟩⟩ 0 "m"
      (0, 255, 0)).1,
    (c10_show_feedback_in_place (OverlayRenderer.init 640 480) ⟨2, fun _ => ⟨0, []⟩⟩ 0 "m"
      (0, 255, 0)).2.2.2 1 (by norm_num)⟩

/-!
### The capture loop of main.py

The loop state is the `captured` flag plus the global `button_clicked` flag
set by the mouse callback.  Each iteration consumes one bundle of external
inputs: the `cap.read()` outcome, the polled key, whether the mouse callback
fired inside the button this cycle, the (ignored) `cv2.imwrite` return value
and the timestamp string.  Display and file writes are reported as outputs.
-/

def liveBanner : String := "Align coin and lesion in guides"

def frozenBanner : String := "CAPTURED SUCCESSFULLY - Press Q to exit"

/-- `ord('q')`. -/
def quitKey : ℕ := 113

/-- `ord(' ')`; the source also compares with the literal 32, the same key. -/
def spaceKey : ℕ := 32

/-- External inputs consumed by one loop iteration. -/
structure LoopIn where
  ret : Bool
  key : ℕ
  click : Bool
  writeOk : Bool
  ts : String

/-- The mutable state of the loop: `captured`, and the global
`button_clicked` flag written by the mouse callback. -/
structure LoopState where
  captured : Bool
  buttonClicked : Bool
  deriving DecidableEq

/-- Observable effects of one iteration: whether the loop breaks, the file
name passed to `cv2.imwrite` if a capture happened, and the banner drawn by
`show_feedback`. -/
structure StepOut where
  halted : Bool
  wrote : Option String
  banner : Option String
  deriving DecidableEq

/-- One iteration of the while-loop of main.py (lines 77-162).  A failed read
breaks the loop; in the captured state the frozen banner is shown and only
the quit key is honored; otherwise a trigger (pending button click or
spacebar) writes `capture_<ts>.png` — the `cv2.imwrite` return value is
discarded — sets `captured`, and clears the click flag. -/
def step (s : LoopState) (i : LoopIn) : LoopState × StepOut :=
  if !i.ret then (⟨s.captured, s.buttonClicked || i.click⟩, ⟨true, none, none⟩)
  else if s.captured then
    (⟨true, s.buttonClicked || i.click⟩, ⟨i.key == quitKey, none, some frozenBanner⟩)
  else if (s.buttonClicked || i.click) || (i.key == spaceKey) then
    (⟨true, false⟩, ⟨i.key == quitKey, some ("capture_" ++ i.ts ++ ".png"), some liveBanner⟩)
  else
    (⟨false, s.buttonClicked || i.click⟩, ⟨i.key == quitKey, none, some liveBanner⟩)

/-- Run the loop on a list of per-iteration inputs, stopping when an
iteration breaks. -/
def runLoop (s : LoopState) : List LoopIn → LoopState × List StepOut
  | [] => (s, [])
  | i :: rest =>
    if (step s i).2.halted then ((step s i).1, [(step s i).2])
    else ((runLoop (step s i).1 rest).1, (step s i).2 :: (runLoop (step s i).1 rest).2)

/-- The files handed to `cv2.imwrite` during a run. -/
def writesOf (outs : List StepOut) : List String := outs.filterMap StepOut.wrote

theorem step_captured_mono (s : LoopState) (i : LoopIn) (h : s.captured = true) :
    (step s i).1.captured = true := by
  unfold step
  cases hi : i.ret <;> simp [hi, h]

theorem step_wrote_none_of_captured (s : LoopState) (i : LoopIn) (h : s.captured = true) :
    (step s i).2.wrote = none := by
  unfold step
  cases hi : i.ret <;> simp [hi, h]

theorem step_wrote_none_of_stay (s : LoopState) (i : LoopIn)
    (h : (step s i).1.captured = false) : (step s i).2.wrote = none := by
  unfold step at h ⊢
  cases hi : i.ret
  · simp [hi]
  · rw [hi] at h
    cases hs : s.captured
    · rw [hs] at h
      cases ht : (s.buttonClicked || i.click) || (i.key == spaceKey)
      · simp [hs, ht]
      · rw [ht] at h
        simp at h
    · rw [hs] at h
      simp at h

theorem writesOf_cons (o : StepOut) (l : List StepOut) :
    (writesOf (o :: l)).length ≤ 1 + (writesOf l).length := by
  unfold writesOf
  rw [List.filterMap_cons]
  cases o.wrote
  · simp
  · simp
    omega

theorem writesOf_cons_none (o : StepOut) (l : List StepOut) (h : o.wrote = none) :
    writesOf (o :: l) = writesOf l := by
  unfold writesOf
  rw [List.filterMap_cons, h]

theorem runLoop_writes_le (ins : List LoopIn) : ∀ s : LoopState,
    (writesOf (runLoop s ins).2).length ≤ if s.captured = true then 0 else 1 := by
  induction ins with
  | nil =>
    intro s
    show (writesOf (s, ([] : List StepOut)).2).length ≤ _
    simp only [writesOf, List.filterMap_nil, List.length_nil]
    split <;> norm_num
  | cons i rest ih =>
    intro s
    unfold runLoop
    cases hs : s.captured
    · by_cases hh : (step s i).2.halted = true
      · rw [if_pos hh]
        simp only
        unfold writesOf
        rw [List.filterMap_cons]
        cases hw : (step s i).2.wrote <;> simp [hs]
      · rw [if_neg hh]
        simp only
        cases hc : (step s i).1.captured
        · rw [writesOf_cons_none _ _ (step_wrote_none_of_stay s i hc)]
          have := ih (step s i).1
          rw [hc] at this
          simpa [hs] using this
        · have h1 := writesOf_cons (step s i).2 (runLoop (step s i).1 rest).2
          have h2 := ih (step s i).1
          have h3 : (writesOf (runLoop (step s i).1 rest).2).length ≤ 0 := by
            simpa [hc] using ih (step s i).1
          have h4 : (if false = true then 0 else 1) = 1 := by norm_num
          rw [h4]
          omega
    · by_cases hh : (step s i).2.halted = true
      · rw [if_pos hh]
        simp only
        rw [writesOf_cons_none _ _ (step_wrote_none_of_captured s i hs)]
        simp [hs, writesOf]
      · rw [if_neg hh]
        simp only
        rw [writesOf_cons_none _ _ (step_wrote_none_of_captured s i hs)]
        have h2 := ih (step s i).1
        rw [step_captured_mono s i hs] at h2
        simpa [hs] using h2

theorem runLoop_captured_mono (ins : List LoopIn) : ∀ s : LoopState, s.captured = true →
    (runLoop s ins).1.captured = true := by
  induction ins with
  | nil => intro s h; exact h
  | cons i rest ih =>
    intro s h
    unfold runLoop
    by_cases hh : (step s i).2.halted = true
    · rw [if_pos hh]
      exact step_captured_mono s i h
    · rw [if_neg hh]
      exact ih (step s i).1 (step_captured_mono s i h)

/-!
### Claims about the capture loop
-/

/-- C6: a trigger in the live state writes exactly one file, named
`capture_<timestamp>.png`, and sets `captured`; once `captured` is set it
never clears, no later iteration writes, every later displayed banner is the
frozen-status banner (which differs from the live banner), and the quit key
still breaks the loop; over any whole session started live, at most one file
is ever written. -/
theorem c6_capture_once_and_freeze :
    (∀ s i, s.captured = false → i.ret = true →
      ((s.buttonClicked || i.click) || (i.key == spaceKey)) = true →
      (step s i).2.wrote = some ("capture_" ++ i.ts ++ ".png") ∧
        (step s i).1.captured = true) ∧
    (∀ s i, s.captured = true →
      (step s i).1.captured = true ∧
      (step s i).2.wrote = none ∧
      (i.ret = true → (step s i).2.banner = some frozenBanner) ∧
      (i.ret = true → i.key = quitKey → (step s i).2.halted = true)) ∧
    frozenBanner ≠ liveBanner ∧
    (∀ ins s, s.captured = true → (runLoop s ins).1.captured = true) ∧
    (∀ ins, (writesOf (runLoop ⟨false, false⟩ ins).2).length ≤ 1) := by
  refine ⟨?_, ?_, ?_, ?_, ?_⟩
  · intro s i hs hr ht
    unfold step
    rw [hr, hs, ht]
    exact ⟨rfl, rfl⟩
  · intro s i hs
    unfold step
    cases hr : i.ret
    · simp [hs]
    · refine ⟨by simp [hs], by simp [hs], fun _ => by simp [hs], fun _ hk => ?_⟩
      simp [hs, hk, quitKey]
  · decide
  · intro ins s hs
    exact runLoop_captured_mono ins s hs
  · intro ins
    have h := runLoop_writes_le ins ⟨false, false⟩
    simpa using h

/-- C6 theorem exercised at the concrete trigger of a live session and at a
frozen-state iteration. -/
theorem c6_witness :
    (step ⟨false, false⟩ ⟨true, 32, false, true, "20260101-120000"⟩).2.wrote =
      some ("capture_" ++ "20260101-120000" ++ ".png") ∧
    (step ⟨true, false⟩ ⟨true, 113, false, true, "t"⟩).2.banner = some frozenBanner := by
  refine ⟨?_, ?_⟩
  · exact (c6_capture_once_and_freeze.1 ⟨false, false⟩
      ⟨true, 32, false, true, "20260101-120000"⟩ rfl rfl (by decide)).1
  · exact ((c6_capture_once_and_freeze.2.1 ⟨true, false⟩
      ⟨true, 113, false, true, "t"⟩ rfl).2.2.1 rfl)

/-!
### Startup and exit semantics of the entry points
-/

/-- The externally determined camera behavior at startup. -/
structure CameraEnv where
  opened : Bool
  firstReadOk : Bool

/-- The observable outcome of running an entry point as a script. -/
structure MainResult where
  exitCode : ℕ
  enteredLoop : Bool
  errors : List String
  outs : List StepOut

/-- `main()` of main.py (lines 26-166): camera-open failure and first-read
failure print an ERROR diagnostic and `return` before the loop; otherwise the
capture loop runs.  `main()` returns None and `sys.exit` is never called, so
the interpreter exit code is 0 on every path, error paths included. -/
def pyMain (env : CameraEnv) (ins : List LoopIn) : MainResult :=
  if !env.opened then ⟨0, false, ["ERROR: Cannot open camera"], []⟩
  else if !env.firstReadOk then ⟨0, false, ["ERROR: Cannot read from camera"], []⟩
  else ⟨0, true, [], (runLoop ⟨false, false⟩ ins).2⟩

/-- The startup of `main()` of main_phone.py (lines 63-107): the same
open-failure and first-read-failure checks with the same early `return` and
exit code 0 (its open-failure path prints extra troubleshooting lines; its
loop differs from main.py only in the dropped-frame policy, which is not at
issue here, so only startup is modeled). -/
def pyMainPhoneStartup (env : CameraEnv) : MainResult :=
  if !env.opened then ⟨0, false, ["ERROR: Cannot open camera"], []⟩
  else if !env.firstReadOk then ⟨0, false, ["ERROR: Cannot read from camera"], []⟩
  else ⟨0, true, [], []⟩

/-- C7 counterexample: on camera-open failure the diagnostic is printed and
the loop is never entered, but the process exit code is 0, not non-zero —
the error path returns normally. -/
theorem c7_counterexample :
    (pyMain ⟨false, true⟩ []).errors = ["ERROR: Cannot open camera"] ∧
    (pyMain ⟨false, true⟩ []).enteredLoop = false ∧
    (pyMain ⟨false, true⟩ []).exitCode = 0 :=
  ⟨rfl, rfl, rfl⟩

/-- C7 (amended): camera-open failure and first-frame-read failure both
print a diagnostic and exit without entering the capture loop, and a normal
quit exits with code 0; but the failure paths also exit with code 0, since
both entry points return from main() without signaling an error. -/
theorem c7_amended (env : CameraEnv) (ins : List LoopIn) :
    (pyMain env ins).exitCode = 0 ∧
    (pyMainPhoneStartup env).exitCode = 0 ∧
    (env.opened = false →
      (pyMain env ins).enteredLoop = false ∧
        (pyMain env ins).errors = ["ERROR: Cannot open camera"] ∧
        (pyMainPhoneStartup env).enteredLoop = false) ∧
    (env.opened = true → env.firstReadOk = false →
      (pyMain env ins).enteredLoop = false ∧
        (pyMain env ins).errors = ["ERROR: Cannot read from camera"] ∧
        (pyMainPhoneStartup env).enteredLoop = false) := by
  unfold pyMain pyMainPhoneStartup
  rcases env with ⟨o, fr⟩
  cases o <;> cases fr <;> simp

/-- C7 amended theorem instantiated at a first-read failure. -/
theorem c7_amended_witness :
    (pyMain ⟨true, false⟩ []).exitCode = 0 ∧
      (pyMain ⟨true, false⟩ []).errors = ["ERROR: Cannot read from camera"] :=
  ⟨(c7_amended ⟨true, false⟩ []).1, ((c7_amended ⟨true, false⟩ []).2.2.2 rfl rfl).2.1⟩

/-- C8: the source calls `cv2.imwrite` on a trigger and discards its return
value: even when the write fails (`writeOk = false`), the very same
transition sets `captured = true`, so the session counts the capture as
having occurred regardless of write success. -/
theorem c8_frozen_despite_write_failure :
    (⟨true, 32, false, false, "20260101-000000"⟩ : LoopIn).writeOk = false ∧
    (step ⟨false, false⟩ ⟨true, 32, false, false, "20260101-000000"⟩).1.captured = true ∧
    (step ⟨false, false⟩ ⟨true, 32, false, false, "20260101-000000"⟩).2.wrote =
      some ("capture_" ++ "20260101-000000" ++ ".png") := by
  refine ⟨rfl, ?_, ?_⟩ <;> rfl

end CameraOverlay
